import Mathlib

/-!
Verification of the `integer-partitions` crate (`src/lib.rs`).

The crate exposes a single iterator `Partitions` over the integer partitions
of `n`, implementing Kelleher's accelerated ascending-composition method as a
resumable two-phase state machine.  We embed the Rust code shallowly:

* the working buffer `a : Vec<usize>` becomes a `List Nat`;
* the state machine fields `k`, `y`, `next` are carried verbatim;
* `Iterator::next` becomes the pure step function `Partitions.step`,
  returning the emitted partition (if any) together with the mutated state;
* the `while 2 * x <= self.y` loop inside branch `State::A` becomes the
  recursive function `runA` (the loop variable `x` is `x0 + 1`, which is how
  the source computes it: `let x = self.a[self.k] + 1`); it terminates
  because each iteration subtracts `x ≥ 1` from `y`.

Out-of-bounds buffer accesses panic in Rust; they are modelled by `List.getD`
(reads) and the out-of-range no-op of `List.set` (writes).  All states
reachable from `Partitions.new n` only access the buffer in bounds, which the
simulation proof below establishes as a side product.
-/

namespace IntegerPartitions

/-- The two-phase tag `enum State { A, B { x, l } }` from the source. -/
inductive State where
  | A : State
  | B (x l : Nat) : State
deriving DecidableEq

/-- The iterator `struct Partitions { a, k, y, next }` from the source. -/
structure Partitions where
  a : List Nat
  k : Nat
  y : Nat
  next : State
deriving DecidableEq

/-- The inner loop of branch `State::A`:
`while 2 * x <= self.y { self.a[self.k] = x; self.y -= x; self.k += 1 }`,
where `x = x0 + 1` (the source sets `x = a[k] + 1` before the loop). -/
def runA (x0 : Nat) (a : List Nat) (k y : Nat) : List Nat × Nat × Nat :=
  if h : 2 * (x0 + 1) ≤ y then
    runA x0 (a.set k (x0 + 1)) (k + 1) (y - (x0 + 1))
  else
    (a, k, y)
termination_by y
decreasing_by omega

/-- `Partitions::new(n)`. -/
def Partitions.new (n : Nat) : Partitions where
  a := List.replicate (n + 1) 0
  k := if n = 0 then 0 else 1
  y := if n = 0 then 0 else n - 1
  next := State.A

/-- The `for _ in 0..t { vec.push(0) }` loop in `Partitions::recycle`. -/
def pushZeros (v : List Nat) : Nat → List Nat
  | 0 => v
  | t + 1 => pushZeros (v.concat 0) t

/-- `Partitions::recycle(n, vec)`: clears the caller's vector and refills it
with `n + 1` zeroes.  `vec.clear()` leaves the empty list; `vec.reserve` only
affects capacity, which has no observable counterpart here. -/
def Partitions.recycle (n : Nat) (vec : List Nat) : Partitions :=
  let cleared : List Nat := []
  { a := pushZeros cleared (n + 1)
    k := if n = 0 then 0 else 1
    y := if n = 0 then 0 else n - 1
    next := State.A }

/-- `Partitions::end(self)`: hands the buffer back. -/
def Partitions.getBuffer (p : Partitions) : List Nat :=
  p.a

/-- `<Partitions as Iterator>::next`, as a pure state transformer.
`result.extend_from_slice(&self.a[..j])` becomes `a.take j`;
`self.a.pop()` becomes `List.dropLast`. -/
def Partitions.step (p : Partitions) : Option (List Nat) × Partitions :=
  match p.next with
  | State.A =>
    if p.k = 0 then
      if p.a.length = 1 then
        (some [], { p with a := p.a.dropLast })
      else
        (none, p)
    else
      let k0 := p.k - 1
      let x0 := p.a.getD k0 0
      match runA x0 p.a k0 p.y with
      | (a, k, y) =>
        let x := x0 + 1
        let l := k + 1
        if x ≤ y then
          let a2 := (a.set k x).set l y
          (some (a2.take (k + 2)), ⟨a2, k, y, State.B x l⟩)
        else
          let a2 := a.set k (x + y)
          (some (a2.take (k + 1)), ⟨a2, k, x + y - 1, State.A⟩)
  | State.B x l =>
    let x1 := x + 1
    let y1 := p.y - 1
    if x1 ≤ y1 then
      let a2 := (p.a.set p.k x1).set l y1
      (some (a2.take (p.k + 2)), ⟨a2, p.k, y1, State.B x1 l⟩)
    else
      let a2 := p.a.set p.k (x1 + y1)
      (some (a2.take (p.k + 1)), ⟨a2, p.k, x1 + y1 - 1, State.A⟩)

/-- Pull up to `f` items from the iterator, collecting the emitted
partitions; stops early when the iterator signals exhaustion. -/
def run : Nat → Partitions → List (List Nat)
  | 0, _ => []
  | f + 1, p =>
    match Partitions.step p with
    | (none, _) => []
    | (some r, q) => r :: run f q

/-- The state after `j` calls to `Partitions.step`, discarding outputs. -/
def stepIter : Nat → Partitions → Partitions
  | 0, p => p
  | j + 1, p => stepIter j (Partitions.step p).2

/-- `EmitsP I p L`: the iterator in state `p` emits exactly the partitions
in `L` and then signals exhaustion; every state along the way (including
`p` and the exhausted terminal state) satisfies the invariant `I`. -/
inductive EmitsP (I : Partitions → Prop) : Partitions → List (List Nat) → Prop where
  | nil {p : Partitions} : I p → (Partitions.step p).1 = none → EmitsP I p []
  | cons {p q : Partitions} {r : List Nat} {L : List (List Nat)} :
      I p → Partitions.step p = (some r, q) → EmitsP I q L → EmitsP I p (r :: L)

/-- `Emits p L`: the iterator in state `p` emits exactly `L`, then exhausts. -/
def Emits (p : Partitions) (L : List (List Nat)) : Prop :=
  EmitsP (fun _ => True) p L

/-!
Specification-side enumeration.

`asc m R` lists every ascending composition of `R` whose parts are all
`≥ m` (for `1 ≤ m`), in lexicographic order: first the compositions starting
with the smallest admissible part `m`, then the rest.  `asc 1 n` is the list
of all partitions of `n` in canonical non-decreasing form.
-/

/-- All non-decreasing sequences of parts `≥ m` summing to `R`, in
lexicographic order (`m = 0` is unused and returns `[]` for `R ≠ 0`). -/
def asc (m R : Nat) : List (List Nat) :=
  if R = 0 then [[]]
  else if h : 1 ≤ m ∧ m ≤ R then
    (asc m (R - m)).map (fun c => m :: c) ++ asc (m + 1) R
  else
    []
termination_by (R, R + 1 - m)
decreasing_by
  · exact Prod.Lex.left _ _ (by omega)
  · exact Prod.Lex.right _ (by omega)

/-- The partitions emitted by phase `B` after the pair `(x, z)` was just
emitted: the two-part splits `[x+1, z-1], [x+2, z-2], …` while the parts
stay ordered, then the single merged part `[x+z]`. -/
def ascB (x z : Nat) : List (List Nat) :=
  if h : x + 1 ≤ z - 1 ∧ 1 ≤ z then
    [x + 1, z - 1] :: ascB (x + 1) (z - 1)
  else
    [[x + z]]
termination_by z
decreasing_by omega

/-- Helper for `rest`, recursing over the reversed settled prefix. -/
def restRev : List Nat → Nat → List (List Nat)
  | [], _ => []
  | v :: Pr, R =>
    (asc (v + 1) (v + R)).map (fun c => Pr.reverse ++ c) ++ restRev Pr (v + R)

/-- `rest P R`: the partitions still to be emitted once the machine has
finished redistributing a residual `R` to the right of the settled prefix
`P` — it then successively reworks the last slot of `P` with residual
`v + R` where `v` is that slot's value, and so on up the prefix. -/
def rest (P : List Nat) (R : Nat) : List (List Nat) :=
  restRev P.reverse R

/-- Number of iterations of the branch-`A` inner loop (`runA`) starting
from residual `y`, with loop value `x = x0 + 1`. -/
def fl (x0 y : Nat) : Nat :=
  if h : 2 * (x0 + 1) ≤ y then fl x0 (y - (x0 + 1)) + 1 else 0
termination_by y
decreasing_by omega

/-! ### List helper lemmas -/

theorem take_app (L t : List Nat) (j : Nat) :
    (L ++ t).take (L.length + j) = L ++ t.take j := by
  induction L with
  | nil => simp
  | cons a L ih => simpa [Nat.succ_add] using ih

theorem take_app0 (L t : List Nat) : (L ++ t).take L.length = L := by
  simpa using take_app L t 0

theorem drop_app (L t : List Nat) (j : Nat) :
    (L ++ t).drop (L.length + j) = t.drop j := by
  induction L with
  | nil => simp
  | cons a L ih => simpa [Nat.succ_add] using ih

theorem set_app (L t : List Nat) (j w : Nat) :
    (L ++ t).set (L.length + j) w = L ++ t.set j w := by
  induction L with
  | nil => simp
  | cons a L ih => simpa [Nat.succ_add] using ih

theorem getD_app (L t : List Nat) (j d : Nat) :
    (L ++ t).getD (L.length + j) d = t.getD j d := by
  induction L with
  | nil => simp
  | cons a L ih => simpa [Nat.succ_add] using ih

theorem set_len (L : List Nat) (c : Nat) (t : List Nat) (w : Nat) :
    (L ++ c :: t).set L.length w = L ++ w :: t := by
  have := set_app L (c :: t) 0 w
  simpa using this

theorem set_len1 (L : List Nat) (c0 c1 : Nat) (t : List Nat) (w : Nat) :
    (L ++ c0 :: c1 :: t).set (L.length + 1) w = L ++ c0 :: w :: t := by
  have := set_app L (c0 :: c1 :: t) 1 w
  simpa using this

theorem take_len1 (L : List Nat) (c : Nat) (t : List Nat) :
    (L ++ c :: t).take (L.length + 1) = L ++ [c] := by
  have := take_app L (c :: t) 1
  simpa using this

theorem take_len2 (L : List Nat) (c0 c1 : Nat) (t : List Nat) :
    (L ++ c0 :: c1 :: t).take (L.length + 2) = L ++ [c0, c1] := by
  have := take_app L (c0 :: c1 :: t) 2
  simpa using this

theorem getD_len (L : List Nat) (c : Nat) (t : List Nat) (d : Nat) :
    (L ++ c :: t).getD L.length d = c := by
  have := getD_app L (c :: t) 0 d
  simpa using this

theorem len_le_sum {l : List Nat} (h : ∀ q ∈ l, 1 ≤ q) : l.length ≤ l.sum := by
  induction l with
  | nil => simp
  | cons a l ih =>
    have ha := h a (by simp)
    have := ih (fun q hq => h q (by simp [hq]))
    simp only [List.length_cons, List.sum_cons]
    omega

theorem pushZeros_eq (t : Nat) : ∀ v : List Nat,
    pushZeros v t = v ++ List.replicate t 0 := by
  induction t with
  | zero => simp [pushZeros]
  | succ t ih =>
    intro v
    rw [pushZeros, ih]
    simp [List.concat_eq_append, List.replicate_succ, List.append_assoc]

/-! ### The inner loop `runA` and its iteration count `fl` -/

theorem fl_mul_le (x0 : Nat) : ∀ y, fl x0 y * (x0 + 1) ≤ y := by
  intro y
  induction y using Nat.strong_induction_on with
  | _ y ih =>
    rw [fl]
    split
    · have := ih (y - (x0 + 1)) (by omega)
      calc (fl x0 (y - (x0 + 1)) + 1) * (x0 + 1)
          = fl x0 (y - (x0 + 1)) * (x0 + 1) + (x0 + 1) := by ring
        _ ≤ y := by omega
    · omega

theorem fl_last_lt (x0 : Nat) : ∀ y, y - fl x0 y * (x0 + 1) < 2 * (x0 + 1) := by
  intro y
  induction y using Nat.strong_induction_on with
  | _ y ih =>
    rw [fl]
    split
    · have h1 := ih (y - (x0 + 1)) (by omega)
      have h2 := fl_mul_le x0 (y - (x0 + 1))
      have : y - (fl x0 (y - (x0 + 1)) + 1) * (x0 + 1)
          = (y - (x0 + 1)) - fl x0 (y - (x0 + 1)) * (x0 + 1) := by ring_nf; omega
      omega
    · omega

theorem fl_pos_ge (x0 : Nat) : ∀ y, 1 ≤ fl x0 y →
    x0 + 1 ≤ y - fl x0 y * (x0 + 1) := by
  intro y
  induction y using Nat.strong_induction_on with
  | _ y ih =>
    rw [fl]
    split
    · intro
      rename_i hy
      by_cases h1 : 1 ≤ fl x0 (y - (x0 + 1))
      · have := ih (y - (x0 + 1)) (by omega) h1
        have h2 := fl_mul_le x0 (y - (x0 + 1))
        have : y - (fl x0 (y - (x0 + 1)) + 1) * (x0 + 1)
            = (y - (x0 + 1)) - fl x0 (y - (x0 + 1)) * (x0 + 1) := by ring_nf; omega
        omega
      · have h0 : fl x0 (y - (x0 + 1)) = 0 := by omega
        rw [h0]
        omega
    · intro h
      exact absurd h (by omega)

theorem runA_spec (x0 : Nat) : ∀ y a k, k + fl x0 y ≤ a.length →
    runA x0 a k y = (a.take k ++ List.replicate (fl x0 y) (x0 + 1) ++
        a.drop (k + fl x0 y), k + fl x0 y, y - fl x0 y * (x0 + 1)) := by
  intro y
  induction y using Nat.strong_induction_on with
  | _ y ih =>
    intro a k hlen
    by_cases hy : 2 * (x0 + 1) ≤ y
    · have hfleq : fl x0 y = fl x0 (y - (x0 + 1)) + 1 := by
        rw [fl]; simp [hy]
      set t' := fl x0 (y - (x0 + 1)) with ht'
      rw [hfleq] at hlen
      have hk : k < a.length := by omega
      rw [runA, dif_pos hy]
      have hrec := ih (y - (x0 + 1)) (by omega) (a.set k (x0 + 1)) (k + 1)
        (by rw [List.length_set, ← ht']; omega)
      rw [hrec, hfleq]
      have hlt : (a.take k).length = k := List.length_take_of_le (by omega)
      have hdec : a = a.take k ++ a[k] :: a.drop (k + 1) := by
        rw [← List.drop_eq_getElem_cons hk, List.take_append_drop]
      have hset : a.set k (x0 + 1) = a.take k ++ (x0 + 1) :: a.drop (k + 1) :=
        calc a.set k (x0 + 1)
            = (a.take k ++ a[k] :: a.drop (k + 1)).set (a.take k).length
                (x0 + 1) := by rw [← hdec, hlt]
          _ = a.take k ++ (x0 + 1) :: a.drop (k + 1) := set_len _ _ _ _
      rw [hset]
      have e1 : (a.take k ++ (x0 + 1) :: a.drop (k + 1)).take (k + 1)
          = a.take k ++ [x0 + 1] := by
        have := take_app (a.take k) ((x0 + 1) :: a.drop (k + 1)) 1
        rw [hlt] at this
        simpa using this
      have e2 : (a.take k ++ (x0 + 1) :: a.drop (k + 1)).drop (k + 1 + t')
          = a.drop (k + 1 + t') := by
        have := drop_app (a.take k) ((x0 + 1) :: a.drop (k + 1)) (1 + t')
        rw [hlt, show k + (1 + t') = k + 1 + t' by omega] at this
        rw [this, show (1 + t') = t' + 1 by omega, List.drop_succ_cons,
          List.drop_drop]
      rw [e1, e2]
      refine Prod.ext ?_ (Prod.ext ?_ ?_)
      · show a.take k ++ [x0 + 1] ++ List.replicate t' (x0 + 1) ++
            a.drop (k + 1 + t')
          = a.take k ++ List.replicate (t' + 1) (x0 + 1) ++ a.drop (k + (t' + 1))
        rw [show k + (t' + 1) = k + 1 + t' from by omega, List.replicate_succ]
        simp [List.append_assoc]
      · show k + 1 + t' = k + (t' + 1)
        omega
      · show y - (x0 + 1) - t' * (x0 + 1) = y - (t' + 1) * (x0 + 1)
        have hmul : (t' + 1) * (x0 + 1) = t' * (x0 + 1) + (x0 + 1) := by ring
        omega
    · have hfleq : fl x0 y = 0 := by rw [fl]; simp [hy]
      rw [runA, dif_neg hy, hfleq]
      simp [List.take_append_drop]

/-! ### Properties of the reference enumeration `asc` -/

theorem asc_zero (m : Nat) : asc m 0 = [[]] := by
  rw [asc]
  simp

theorem asc_of_le {m R : Nat} (h0 : R ≠ 0) (h1 : 1 ≤ m) (h2 : m ≤ R) :
    asc m R = (asc m (R - m)).map (fun c => m :: c) ++ asc (m + 1) R := by
  rw [asc, if_neg h0, dif_pos ⟨h1, h2⟩]

theorem asc_of_gt {m R : Nat} (h0 : R ≠ 0) (h2 : R < m) : asc m R = [] := by
  rw [asc, if_neg h0, dif_neg (by omega)]

theorem asc_single {m R : Nat} : 1 ≤ m → m ≤ R → R < 2 * m → asc m R = [[R]] := by
  induction m, R using asc.induct with
  | case1 m => intro h1 h2 _; omega
  | case2 m R h0 hg ih1 ih2 =>
    intro h1 h2 h3
    rw [asc_of_le h0 h1 h2]
    by_cases hm : R = m
    · subst hm
      rw [show R - R = 0 from by omega, asc_zero, asc_of_gt h0 (by omega)]
      simp
    · rw [asc_of_gt (by omega) (by omega), ih2 (by omega) (by omega) (by omega)]
      simp
  | case3 m R h0 hg => intro h1 h2 _; exact absurd ⟨h1, h2⟩ hg

theorem ascB_cons {x z : Nat} (h : x + 1 ≤ z - 1) (hz : 1 ≤ z) :
    ascB x z = [x + 1, z - 1] :: ascB (x + 1) (z - 1) := by
  rw [ascB, dif_pos ⟨h, hz⟩]

theorem ascB_last {x z : Nat} (h : ¬(x + 1 ≤ z - 1)) : ascB x z = [[x + z]] := by
  rw [ascB, dif_neg (by omega)]

theorem ascB_asc : ∀ z x, 1 ≤ x → x ≤ z → z ≤ 2 * x + 2 →
    asc (x + 1) (x + z) = ascB x z := by
  intro z
  induction z using Nat.strong_induction_on with
  | _ z ih =>
    intro x hx hxz hb
    have hz1 : 1 ≤ z := by omega
    by_cases hg : x + 1 ≤ z - 1
    · rw [ascB_cons hg hz1,
        asc_of_le (by omega) (by omega) (by omega),
        show x + z - (x + 1) = z - 1 from by omega,
        asc_single (m := x + 1) (by omega) (by omega) (by omega),
        show x + 2 = (x + 1) + 1 from by omega,
        show x + z = (x + 1) + (z - 1) from by omega,
        ih (z - 1) (by omega) (x + 1) (by omega) (by omega) (by omega)]
      simp
    · rw [ascB_last hg, asc_single (by omega) (by omega) (by omega)]

theorem asc_mem : ∀ m R, 1 ≤ m → ∀ l ∈ asc m R,
    l.sum = R ∧ List.Sorted (· ≤ ·) l ∧ ∀ q ∈ l, m ≤ q := by
  intro m R
  induction m, R using asc.induct with
  | case1 m =>
    intro _ l hl
    rw [asc_zero] at hl
    simp only [List.mem_singleton] at hl
    subst hl
    simp
  | case2 m R h0 hg ih1 ih2 =>
    intro h1 l hl
    rw [asc_of_le h0 hg.1 hg.2] at hl
    rcases List.mem_append.mp hl with hml | hmr
    · obtain ⟨c, hc, rfl⟩ := List.mem_map.mp hml
      obtain ⟨hsum, hsort, hge⟩ := ih1 h1 c hc
      refine ⟨by simp [hsum]; omega, ?_, ?_⟩
      · rw [List.sorted_cons]
        exact ⟨fun b hb => hge b hb, hsort⟩
      · intro q hq
        rcases List.mem_cons.mp hq with rfl | hq'
        · omega
        · exact hge q hq'
    · obtain ⟨hsum, hsort, hge⟩ := ih2 (by omega) l hmr
      exact ⟨hsum, hsort, fun q hq => by have := hge q hq; omega⟩
  | case3 m R h0 hg =>
    intro h1 l hl
    rw [asc, if_neg h0, dif_neg hg] at hl
    simp at hl

theorem asc_complete : ∀ m R, 1 ≤ m → ∀ l, l.sum = R →
    List.Sorted (· ≤ ·) l → (∀ q ∈ l, m ≤ q) → l ∈ asc m R := by
  intro m R
  induction m, R using asc.induct with
  | case1 m =>
    intro h1 l hsum hsort hge
    rw [asc_zero]
    cases l with
    | nil => simp
    | cons a c =>
      have := hge a (by simp)
      simp only [List.sum_cons] at hsum
      omega
  | case2 m R h0 hg ih1 ih2 =>
    intro h1 l hsum hsort hge
    rw [asc_of_le h0 hg.1 hg.2]
    cases l with
    | nil => simp at hsum; omega
    | cons a c =>
      rw [List.sorted_cons] at hsort
      obtain ⟨hab, hsort'⟩ := hsort
      have ham := hge a (by simp)
      simp only [List.sum_cons] at hsum
      by_cases ha : a = m
      · subst ha
        refine List.mem_append.mpr (Or.inl (List.mem_map.mpr ⟨c, ?_, rfl⟩))
        exact ih1 h1 c (by omega) hsort' (fun q hq => le_trans ham (hab q hq))
      · refine List.mem_append.mpr (Or.inr ?_)
        exact ih2 (by omega) (a :: c) (by simp; omega)
          (List.sorted_cons.mpr ⟨hab, hsort'⟩)
          (fun q hq => by
            rcases List.mem_cons.mp hq with rfl | hq'
            · omega
            · have := hab q hq'; omega)
  | case3 m R h0 hg =>
    intro h1 l hsum hsort hge
    exfalso
    cases l with
    | nil => simp at hsum; omega
    | cons a c =>
      have := hge a (by simp)
      simp only [List.sum_cons] at hsum
      omega

theorem asc_nodup : ∀ m R, 1 ≤ m → (asc m R).Nodup := by
  intro m R
  induction m, R using asc.induct with
  | case1 m =>
    intro _
    rw [asc_zero]
    simp
  | case2 m R h0 hg ih1 ih2 =>
    intro h1
    rw [asc_of_le h0 hg.1 hg.2]
    refine List.Nodup.append ?_ (ih2 (by omega)) ?_
    · exact (ih1 h1).map (fun c1 c2 h => by simpa using h)
    · intro l hml hmr
      obtain ⟨c, _, rfl⟩ := List.mem_map.mp hml
      have := (asc_mem (m + 1) R (by omega) _ hmr).2.2 m (by simp)
      omega
  | case3 m R h0 hg =>
    intro h1
    rw [asc, if_neg h0, dif_neg hg]
    simp

theorem asc_ne_nil {m R : Nat} (h1 : 1 ≤ m) (h2 : m ≤ R) : asc m R ≠ [] := by
  have : [R] ∈ asc m R :=
    asc_complete m R h1 [R] (by simp) (by simp) (by simp; omega)
  exact List.ne_nil_of_mem this

/-! ### The continuation list `rest` and the step decomposition of `asc` -/

theorem rest_nil (R : Nat) : rest [] R = [] := rfl

theorem rest_snoc (P : List Nat) (v R : Nat) :
    rest (P ++ [v]) R
      = (asc (v + 1) (v + R)).map (fun c => P ++ c) ++ rest P (v + R) := by
  simp [rest, restRev]

/-- One `State::A` step of the machine, seen on the specification side: with
residual `y = t*m + yf` (where `t` is the flood count and `m ≤ yf < 2m`),
the lexicographically first composition is `m^(t+1) ++ [yf]`, after which the
machine is in phase `B`; the remaining enumeration splits accordingly. -/
theorem keyA : ∀ t m yf P, 1 ≤ m → m ≤ yf → yf < 2 * m →
    (asc m (m + (t * m + yf))).map (fun c => P ++ c) ++ rest P (m + (t * m + yf))
    = ((P ++ List.replicate t m) ++ [m, yf]) ::
      ((ascB m yf).map (fun c => (P ++ List.replicate t m) ++ c) ++
        rest (P ++ List.replicate t m) (m + yf)) := by
  intro t
  induction t with
  | zero =>
    intro m yf P h1 h2 h3
    simp only [Nat.zero_mul, Nat.zero_add, List.replicate_zero, List.append_nil]
    rw [asc_of_le (by omega) h1 (by omega), show m + yf - m = yf from by omega,
      asc_single h1 h2 h3, ascB_asc yf m h1 h2 (by omega)]
    simp
  | succ t ih =>
    intro m yf P h1 h2 h3
    have hy : m + ((t + 1) * m + yf) = m + (m + (t * m + yf)) := by ring_nf
    rw [hy, asc_of_le (by omega) h1 (by omega),
      show m + (m + (t * m + yf)) - m = m + (t * m + yf) from by omega,
      List.map_append, List.append_assoc, List.map_map,
      show ((fun c => P ++ c) ∘ (fun c => m :: c))
          = (fun c => (P ++ [m]) ++ c) from funext (fun c => by simp),
      ← rest_snoc P m (m + (t * m + yf)),
      ih m yf (P ++ [m]) h1 h2 h3]
    simp [List.replicate_succ]

/-! ### Reachable state shapes and the machine invariant -/

/-- The amount implicitly pending on top of the settled prefix sum:
`1` in phase `A` (the next slot is reworked with `x = a[k] + 1`), the carried
`x` in phase `B`. -/
def phaseOffset : State → Nat
  | State.A => 1
  | State.B x _ => x

/-- Invariant of all states reachable from `Partitions.new n`: the residual
`y` is `n` minus the settled prefix sum minus the phase offset (with
truncated subtraction, which only matters for `n = 0`), and for `n ≥ 1` the
buffer length is pinned to `n + 1`. -/
def MachInv (n : Nat) (p : Partitions) : Prop :=
  p.y = n - ((p.a.take p.k).sum + phaseOffset p.next) ∧
  (1 ≤ n → p.a.length = n + 1)

/-- Phase-`A` state about to rework the slot holding `v` just after the
settled prefix `P`, with residual `y`. -/
def shapeA (n : Nat) (P : List Nat) (v y : Nat) (p : Partitions) : Prop :=
  ∃ junk, p = ⟨P ++ v :: junk, P.length + 1, y, State.A⟩ ∧
    (∀ q ∈ P, 1 ≤ q) ∧ n = P.sum + v + 1 + y ∧
    P.length + 1 + junk.length = n + 1

/-- Phase-`B` state: the split pair `(x, z)` was just emitted after the
settled prefix `Q`. -/
def shapeB (n : Nat) (Q : List Nat) (x z : Nat) (p : Partitions) : Prop :=
  ∃ junk, p = ⟨Q ++ x :: z :: junk, Q.length, z, State.B x (Q.length + 1)⟩ ∧
    (∀ q ∈ Q, 1 ≤ q) ∧ 1 ≤ x ∧ 1 ≤ z ∧ n = Q.sum + x + z ∧
    Q.length + 2 + junk.length = n + 1

/-- Phase-`A` state right after the exit emission `P ++ [R]`. -/
def shapePost (n : Nat) (P : List Nat) (R : Nat) (p : Partitions) : Prop :=
  ∃ junk, p = ⟨P ++ R :: junk, P.length, R - 1, State.A⟩ ∧
    (∀ q ∈ P, 1 ≤ q) ∧ 1 ≤ R ∧ n = P.sum + R ∧
    P.length + 1 + junk.length = n + 1

/-- Emissions still to come from a `shapeA` state. -/
def targetA (P : List Nat) (v y : Nat) : List (List Nat) :=
  (asc (v + 1) (v + 1 + y)).map (fun c => P ++ c) ++ rest P (v + 1 + y)

/-- Emissions still to come from a `shapeB` state. -/
def targetB (Q : List Nat) (x z : Nat) : List (List Nat) :=
  (ascB x z).map (fun c => Q ++ c) ++ rest Q (x + z)

theorem shapeA_inv {n : Nat} {P : List Nat} {v y : Nat} {p : Partitions}
    (h : shapeA n P v y p) : MachInv n p := by
  obtain ⟨junk, rfl, hpos, hn, hlen⟩ := h
  constructor
  · show y = n - (((P ++ v :: junk).take (P.length + 1)).sum + phaseOffset State.A)
    rw [take_len1, phaseOffset]
    simp only [List.sum_append, List.sum_cons, List.sum_nil]
    omega
  · intro _
    show (P ++ v :: junk).length = n + 1
    simp only [List.length_append, List.length_cons]
    omega

theorem shapeB_inv {n : Nat} {Q : List Nat} {x z : Nat} {p : Partitions}
    (h : shapeB n Q x z p) : MachInv n p := by
  obtain ⟨junk, rfl, hpos, hx, hz, hn, hlen⟩ := h
  constructor
  · show z = n - (((Q ++ x :: z :: junk).take Q.length).sum + phaseOffset (State.B x (Q.length + 1)))
    rw [take_app0, phaseOffset]
    omega
  · intro _
    show (Q ++ x :: z :: junk).length = n + 1
    simp only [List.length_append, List.length_cons]
    omega

theorem shapePost_inv {n : Nat} {P : List Nat} {R : Nat} {p : Partitions}
    (h : shapePost n P R p) : MachInv n p := by
  obtain ⟨junk, rfl, hpos, hR, hn, hlen⟩ := h
  constructor
  · show R - 1 = n - (((P ++ R :: junk).take P.length).sum + phaseOffset State.A)
    rw [take_app0, phaseOffset]
    omega
  · intro _
    show (P ++ R :: junk).length = n + 1
    simp only [List.length_append, List.length_cons]
    omega

theorem post_to_shapeA {n : Nat} {P' : List Nat} {v R : Nat} {p : Partitions}
    (h : shapePost n (P' ++ [v]) R p) : shapeA n P' v (R - 1) p := by
  obtain ⟨junk, rfl, hpos, hR, hn, hlen⟩ := h
  have hsum : (P' ++ [v]).sum = P'.sum + v := by simp
  have hlen' : (P' ++ [v]).length = P'.length + 1 := by simp
  refine ⟨R :: junk, ?_, ?_, ?_, ?_⟩
  · have h1 : (P' ++ [v]) ++ R :: junk = P' ++ v :: R :: junk := by simp
    rw [h1, hlen']
  · exact fun q hq => hpos q (by simp [hq])
  · rw [hsum] at hn
    omega
  · rw [hlen'] at hlen
    simp only [List.length_cons]
    omega

/-! ### One-step evaluation of the machine on each reachable shape -/

theorem stepA_split {n : Nat} {P : List Nat} {v y : Nat} {p : Partitions}
    (h : shapeA n P v y p) (hsp : v + 1 ≤ y - fl v y * (v + 1)) :
    ∃ q, Partitions.step p
        = (some ((P ++ List.replicate (fl v y) (v + 1))
            ++ [v + 1, y - fl v y * (v + 1)]), q)
      ∧ shapeB n (P ++ List.replicate (fl v y) (v + 1)) (v + 1)
          (y - fl v y * (v + 1)) q := by
  obtain ⟨junk, rfl, hpos, hn, hlen⟩ := h
  set t := fl v y with ht
  set yf := y - t * (v + 1) with hyf
  have hmul : t * (v + 1) ≤ y := fl_mul_le v y
  have htley : t ≤ y := le_trans (Nat.le_mul_of_pos_right t (by omega)) hmul
  have hPsum : P.length ≤ P.sum := len_le_sum hpos
  have halen : (P ++ v :: junk).length = P.length + 1 + junk.length := by
    simp only [List.length_append, List.length_cons]
    omega
  have hbound : P.length + t ≤ (P ++ v :: junk).length := by omega
  have htake : (P ++ v :: junk).take P.length = P := take_app0 _ _
  set d := (P ++ v :: junk).drop (P.length + t) with hd
  have hdlen : d.length = P.length + 1 + junk.length - (P.length + t) := by
    rw [hd, List.length_drop, halen]
  have hd2 : 2 ≤ d.length := by omega
  obtain ⟨d0, d1, d', hdeq⟩ : ∃ d0 d1 d', d = d0 :: d1 :: d' := by
    match d, hd2 with
    | d0 :: d1 :: d', _ => exact ⟨d0, d1, d', rfl⟩
  have hrun : runA v (P ++ v :: junk) P.length y
      = ((P ++ List.replicate t (v + 1)) ++ (d0 :: d1 :: d'),
         P.length + t, yf) := by
    rw [runA_spec v y _ _ (by omega), htake, ← ht, ← hd, hdeq, ← hyf]
  have hL : (P ++ List.replicate t (v + 1)).length = P.length + t := by simp
  have hset1 : ((P ++ List.replicate t (v + 1)) ++ d0 :: d1 :: d').set
        (P.length + t) (v + 1)
      = (P ++ List.replicate t (v + 1)) ++ (v + 1) :: d1 :: d' := by
    rw [← hL, set_len]
  have hset2 : ((P ++ List.replicate t (v + 1)) ++ (v + 1) :: d1 :: d').set
        (P.length + t + 1) yf
      = (P ++ List.replicate t (v + 1)) ++ (v + 1) :: yf :: d' := by
    rw [← hL, set_len1]
  have htk : ((P ++ List.replicate t (v + 1)) ++ (v + 1) :: yf :: d').take
        (P.length + t + 2)
      = (P ++ List.replicate t (v + 1)) ++ [v + 1, yf] := by
    rw [← hL, take_len2]
  have hstep : Partitions.step ⟨P ++ v :: junk, P.length + 1, y, State.A⟩
      = (some ((P ++ List.replicate t (v + 1)) ++ [v + 1, yf]),
         ⟨(P ++ List.replicate t (v + 1)) ++ (v + 1) :: yf :: d',
          P.length + t, yf, State.B (v + 1) (P.length + t + 1)⟩) := by
    simp only [Partitions.step]
    rw [if_neg (by omega : ¬ (P.length + 1 = 0)),
      show P.length + 1 - 1 = P.length from rfl, getD_len, hrun]
    simp only []
    rw [if_pos hsp, hset1, hset2, htk]
  refine ⟨_, hstep, d', ?_, ?_, by omega, by omega, ?_, ?_⟩
  · rw [hL]
  · intro q hq
    rcases List.mem_append.mp hq with hq1 | hq2
    · exact hpos q hq1
    · have := List.eq_of_mem_replicate hq2
      omega
  · have hQsum : (P ++ List.replicate t (v + 1)).sum = P.sum + t * (v + 1) := by
      simp [List.sum_replicate, smul_eq_mul]
    rw [hQsum]
    omega
  · rw [hL]
    rw [hdeq] at hdlen
    simp only [List.length_cons] at hdlen
    omega

theorem stepA_exit {n : Nat} {P : List Nat} {v y : Nat} {p : Partitions}
    (h : shapeA n P v y p) (hsp : ¬ (v + 1 ≤ y - fl v y * (v + 1))) :
    ∃ q, Partitions.step p = (some (P ++ [v + 1 + y]), q)
      ∧ shapePost n P (v + 1 + y) q := by
  obtain ⟨junk, rfl, hpos, hn, hlen⟩ := h
  have ht0 : fl v y = 0 := by
    by_contra h0
    have h1 := fl_pos_ge v y (by omega)
    have h2 := fl_mul_le v y
    omega
  have hylt : y < v + 1 := by
    rw [ht0] at hsp
    omega
  have htake : (P ++ v :: junk).take P.length = P := take_app0 _ _
  have hdrop : (P ++ v :: junk).drop P.length = v :: junk := by
    have := drop_app P (v :: junk) 0
    simpa using this
  have hrun : runA v (P ++ v :: junk) P.length y
      = (P ++ v :: junk, P.length, y) := by
    rw [runA_spec v y _ _ (by rw [ht0]; simp), ht0, htake]
    simp [hdrop]
  have hset : (P ++ v :: junk).set P.length (v + 1 + y) = P ++ (v + 1 + y) :: junk :=
    set_len _ _ _ _
  have htk : (P ++ (v + 1 + y) :: junk).take (P.length + 1) = P ++ [v + 1 + y] :=
    take_len1 _ _ _
  have hstep : Partitions.step ⟨P ++ v :: junk, P.length + 1, y, State.A⟩
      = (some (P ++ [v + 1 + y]),
         ⟨P ++ (v + 1 + y) :: junk, P.length, v + 1 + y - 1, State.A⟩) := by
    simp only [Partitions.step]
    rw [if_neg (by omega : ¬ (P.length + 1 = 0)),
      show P.length + 1 - 1 = P.length from rfl, getD_len, hrun]
    simp only []
    rw [if_neg (by omega : ¬ (v + 1 ≤ y)), hset, htk]
  exact ⟨_, hstep, junk, rfl, hpos, by omega, by omega, hlen⟩

theorem stepB_cons {n : Nat} {Q : List Nat} {x z : Nat} {p : Partitions}
    (h : shapeB n Q x z p) (hg : x + 1 ≤ z - 1) :
    ∃ q, Partitions.step p = (some (Q ++ [x + 1, z - 1]), q)
      ∧ shapeB n Q (x + 1) (z - 1) q := by
  obtain ⟨junk, rfl, hpos, hx, hz, hn, hlen⟩ := h
  have hset1 : (Q ++ x :: z :: junk).set Q.length (x + 1)
      = Q ++ (x + 1) :: z :: junk := set_len _ _ _ _
  have hset2 : (Q ++ (x + 1) :: z :: junk).set (Q.length + 1) (z - 1)
      = Q ++ (x + 1) :: (z - 1) :: junk := set_len1 _ _ _ _ _
  have htk : (Q ++ (x + 1) :: (z - 1) :: junk).take (Q.length + 2)
      = Q ++ [x + 1, z - 1] := take_len2 _ _ _ _
  have hstep : Partitions.step
        ⟨Q ++ x :: z :: junk, Q.length, z, State.B x (Q.length + 1)⟩
      = (some (Q ++ [x + 1, z - 1]),
         ⟨Q ++ (x + 1) :: (z - 1) :: junk, Q.length, z - 1,
          State.B (x + 1) (Q.length + 1)⟩) := by
    simp only [Partitions.step]
    rw [if_pos hg, hset1, hset2, htk]
  exact ⟨_, hstep, junk, rfl, hpos, by omega, by omega, by omega, by omega⟩

theorem stepB_exit {n : Nat} {Q : List Nat} {x z : Nat} {p : Partitions}
    (h : shapeB n Q x z p) (hg : ¬ (x + 1 ≤ z - 1)) :
    ∃ q, Partitions.step p = (some (Q ++ [x + z]), q)
      ∧ shapePost n Q (x + z) q := by
  obtain ⟨junk, rfl, hpos, hx, hz, hn, hlen⟩ := h
  have hxy : x + 1 + (z - 1) = x + z := by omega
  have hset : (Q ++ x :: z :: junk).set Q.length (x + 1 + (z - 1))
      = Q ++ (x + 1 + (z - 1)) :: z :: junk := set_len _ _ _ _
  have htk : (Q ++ (x + 1 + (z - 1)) :: z :: junk).take (Q.length + 1)
      = Q ++ [x + 1 + (z - 1)] := take_len1 _ _ _
  have hstep : Partitions.step
        ⟨Q ++ x :: z :: junk, Q.length, z, State.B x (Q.length + 1)⟩
      = (some (Q ++ [x + z]),
         ⟨Q ++ (x + z) :: z :: junk, Q.length, x + z - 1, State.A⟩) := by
    simp only [Partitions.step]
    rw [if_neg hg, hset, htk, hxy]
  refine ⟨_, hstep, z :: junk, rfl, hpos, by omega, by omega, ?_⟩
  simp only [List.length_cons] at hlen ⊢
  omega

theorem step_term {n R : Nat} {p : Partitions}
    (h : shapePost n [] R p) : Partitions.step p = (none, p) := by
  obtain ⟨junk, rfl, _, hR, hn, hlen⟩ := h
  simp only [List.nil_append, List.length_nil] at *
  simp only [Partitions.step, if_true]
  rw [if_neg (by simp only [List.length_cons]; omega)]

/-! ### The main simulation -/

theorem ascB_ne_nil (x z : Nat) : ascB x z ≠ [] := by
  rw [ascB]
  split <;> simp

theorem simStep : ∀ N n,
    (∀ p P v y, shapeA n P v y p → (targetA P v y).length ≤ N →
      EmitsP (MachInv n) p (targetA P v y)) ∧
    (∀ p Q x z, shapeB n Q x z p → (targetB Q x z).length ≤ N →
      EmitsP (MachInv n) p (targetB Q x z)) ∧
    (∀ p P R, shapePost n P R p → (rest P R).length ≤ N →
      EmitsP (MachInv n) p (rest P R)) := by
  intro N
  induction N using Nat.strong_induction_on with
  | _ N ih =>
    intro n
    have hB : ∀ p Q x z, shapeB n Q x z p → (targetB Q x z).length ≤ N →
        EmitsP (MachInv n) p (targetB Q x z) := by
      intro p Q x z hsh hlenN
      have hz1 : 1 ≤ z := by
        obtain ⟨_, _, _, _, hz, _⟩ := hsh
        exact hz
      have hNpos : 1 ≤ (targetB Q x z).length := by
        have h1 : 0 < (ascB x z).length := List.length_pos.mpr (ascB_ne_nil x z)
        simp only [targetB, List.length_append, List.length_map]
        omega
      by_cases hg : x + 1 ≤ z - 1
      · obtain ⟨q, hstep, hshB⟩ := stepB_cons hsh hg
        have hid : targetB Q x z
            = (Q ++ [x + 1, z - 1]) :: targetB Q (x + 1) (z - 1) := by
          rw [targetB, targetB, ascB_cons hg hz1,
            show x + z = x + 1 + (z - 1) from by omega]
          simp
        rw [hid]
        refine EmitsP.cons (shapeB_inv hsh) hstep ?_
        have hlen' : (targetB Q (x + 1) (z - 1)).length ≤ N - 1 := by
          rw [hid] at hlenN
          simp only [List.length_cons] at hlenN
          omega
        exact ((ih (N - 1) (by omega) n).2.1) q Q (x + 1) (z - 1) hshB hlen'
      · obtain ⟨q, hstep, hshP⟩ := stepB_exit hsh hg
        have hid : targetB Q x z = (Q ++ [x + z]) :: rest Q (x + z) := by
          rw [targetB, ascB_last hg]
          simp
        rw [hid]
        refine EmitsP.cons (shapeB_inv hsh) hstep ?_
        have hlen' : (rest Q (x + z)).length ≤ N - 1 := by
          rw [hid] at hlenN
          simp only [List.length_cons] at hlenN
          omega
        exact ((ih (N - 1) (by omega) n).2.2) q Q (x + z) hshP hlen'
    have hA : ∀ p P v y, shapeA n P v y p → (targetA P v y).length ≤ N →
        EmitsP (MachInv n) p (targetA P v y) := by
      intro p P v y hsh hlenN
      set t := fl v y with ht
      set yf := y - t * (v + 1) with hyf
      have hmul : t * (v + 1) ≤ y := by
        rw [ht]
        exact fl_mul_le v y
      have hflt : yf < 2 * (v + 1) := by
        rw [hyf, ht]
        exact fl_last_lt v y
      have hNpos : 1 ≤ (targetA P v y).length := by
        have h1 : 0 < (asc (v + 1) (v + 1 + y)).length :=
          List.length_pos.mpr (asc_ne_nil (by omega) (by omega))
        simp only [targetA, List.length_append, List.length_map]
        omega
      by_cases hsp : v + 1 ≤ yf
      · obtain ⟨q, hstep, hshB⟩ := stepA_split hsh hsp
        have hyd : v + 1 + y = v + 1 + (t * (v + 1) + yf) := by
          rw [hyf, ht]
          have := fl_mul_le v y
          omega
        have hid : targetA P v y
            = ((P ++ List.replicate t (v + 1)) ++ [v + 1, yf])
              :: targetB (P ++ List.replicate t (v + 1)) (v + 1) yf := by
          rw [targetA, hyd, keyA t (v + 1) yf P (by omega) hsp (by omega),
            targetB]
        rw [hid]
        refine EmitsP.cons (shapeA_inv hsh) hstep ?_
        have hlen' :
            (targetB (P ++ List.replicate t (v + 1)) (v + 1) yf).length
              ≤ N - 1 := by
          rw [hid] at hlenN
          simp only [List.length_cons] at hlenN
          omega
        exact ((ih (N - 1) (by omega) n).2.1) q _ (v + 1) yf hshB hlen'
      · obtain ⟨q, hstep, hshP⟩ := stepA_exit hsh hsp
        have ht0 : t = 0 := by
          by_contra h0
          have h1 := fl_pos_ge v y (by omega)
          rw [hyf, ht] at hsp
          exact hsp h1
        have hyy : yf = y := by
          rw [hyf, ht0]
          simp
        have hylt : y < v + 1 := by
          rw [hyy] at hsp
          omega
        have hid : targetA P v y = (P ++ [v + 1 + y]) :: rest P (v + 1 + y) := by
          rw [targetA, asc_single (by omega) (by omega) (by omega)]
          simp
        rw [hid]
        refine EmitsP.cons (shapeA_inv hsh) hstep ?_
        have hlen' : (rest P (v + 1 + y)).length ≤ N - 1 := by
          rw [hid] at hlenN
          simp only [List.length_cons] at hlenN
          omega
        exact ((ih (N - 1) (by omega) n).2.2) q P (v + 1 + y) hshP hlen'
    have hPost : ∀ p P R, shapePost n P R p → (rest P R).length ≤ N →
        EmitsP (MachInv n) p (rest P R) := by
      intro p P R hsh hlenN
      rcases List.eq_nil_or_concat P with rfl | ⟨P', v, rfl⟩
      · rw [rest_nil]
        exact EmitsP.nil (shapePost_inv hsh) (by rw [step_term hsh])
      · rw [List.concat_eq_append] at hsh hlenN ⊢
        have hR : 1 ≤ R := by
          obtain ⟨_, _, _, hR, _⟩ := hsh
          exact hR
        have hshA := post_to_shapeA hsh
        have hid : rest (P' ++ [v]) R = targetA P' v (R - 1) := by
          rw [rest_snoc, targetA, show v + 1 + (R - 1) = v + R from by omega]
        rw [hid]
        exact hA p P' v (R - 1) hshA (by rw [← hid]; exact hlenN)
    exact ⟨hA, hB, hPost⟩

/-- The central theorem: from `new n`, the machine emits exactly the
ascending compositions `asc 1 n`, maintaining `MachInv n` throughout. -/
theorem emitsP_new (n : Nat) :
    EmitsP (MachInv n) (Partitions.new n) (asc 1 n) := by
  by_cases hn : n = 0
  · subst hn
    have h1 : Partitions.new 0 = ⟨[0], 0, 0, State.A⟩ := rfl
    have hstep1 : Partitions.step ⟨[0], 0, 0, State.A⟩
        = (some [], ⟨[], 0, 0, State.A⟩) := rfl
    have hstep2 : (Partitions.step ⟨([] : List Nat), 0, 0, State.A⟩).1 = none :=
      rfl
    rw [asc_zero, h1]
    refine EmitsP.cons ⟨rfl, fun _ => rfl⟩ hstep1
      (EmitsP.nil ⟨rfl, fun h => absurd h (by omega)⟩ hstep2)
  · have hsh : shapeA n [] 0 (n - 1) (Partitions.new n) := by
      refine ⟨List.replicate n 0, ?_, by simp, by simp; omega, by simp; omega⟩
      simp only [Partitions.new, List.nil_append]
      rw [if_neg hn, if_neg hn, ← List.replicate_succ]
      rfl
    have hrun := (simStep (targetA [] 0 (n - 1)).length n).1
      (Partitions.new n) [] 0 (n - 1) hsh (le_refl _)
    have hTA : targetA [] 0 (n - 1) = asc 1 n := by
      rw [targetA, rest_nil, show 0 + 1 + (n - 1) = n from by omega]
      simp
    rw [hTA] at hrun
    exact hrun

/-! ### Consequences of the simulation -/

theorem emitsP_unique {I J : Partitions → Prop} {p : Partitions}
    {L L' : List (List Nat)} (h : EmitsP I p L) (h' : EmitsP J p L') :
    L = L' := by
  induction h generalizing L' with
  | nil hI hnone =>
    cases h' with
    | nil => rfl
    | cons hJ hstep htail =>
      rw [hstep] at hnone
      simp at hnone
  | cons hI hstep htail ihx =>
    cases h' with
    | nil hJ hnone' =>
      rw [hstep] at hnone'
      simp at hnone'
    | cons hJ hstep' htail' =>
      have heq := hstep.symm.trans hstep'
      injection heq with h1 h2
      injection h1 with h1
      subst h1
      subst h2
      rw [ihx htail']

theorem step_none_fix {p : Partitions} (h : (Partitions.step p).1 = none) :
    Partitions.step p = (none, p) := by
  rcases p with ⟨a, k, y, st⟩
  cases st with
  | A =>
    simp only [Partitions.step] at h ⊢
    by_cases hk : k = 0
    · rw [if_pos hk] at h ⊢
      by_cases hl : a.length = 1
      · rw [if_pos hl] at h
        simp at h
      · rw [if_neg hl] at h ⊢
    · rw [if_neg hk] at h
      rcases hr : runA (a.getD (k - 1) 0) a (k - 1) y with ⟨a', k', y'⟩
      rw [hr] at h
      simp only [] at h
      by_cases hxy : a.getD (k - 1) 0 + 1 ≤ y'
      · rw [if_pos hxy] at h
        simp at h
      · rw [if_neg hxy] at h
        simp at h
  | B x l =>
    simp only [Partitions.step] at h
    by_cases hxy : x + 1 ≤ y - 1
    · rw [if_pos hxy] at h
      simp at h
    · rw [if_neg hxy] at h
      simp at h

theorem emitsP_stepIter {I : Partitions → Prop} {p : Partitions}
    {L : List (List Nat)} (h : EmitsP I p L) : ∀ j, I (stepIter j p) := by
  induction h with
  | @nil p' hI hnone =>
    have hstep := step_none_fix hnone
    intro j
    induction j with
    | zero => exact hI
    | succ j ihj =>
      show I (stepIter j (Partitions.step p').2)
      rw [hstep]
      exact ihj
  | @cons p' q' r' L' hI hstep htail ihx =>
    intro j
    cases j with
    | zero => exact hI
    | succ j =>
      show I (stepIter j (Partitions.step p').2)
      rw [hstep]
      exact ihx j

theorem emits_run {I : Partitions → Prop} {p : Partitions}
    {L : List (List Nat)} (h : EmitsP I p L) : ∀ f, run f p = L.take f := by
  induction h with
  | @nil p' hI hnone =>
    intro f
    cases f with
    | zero => rfl
    | succ f =>
      have hstep := step_none_fix hnone
      rw [run, hstep]
      rfl
  | @cons p' q' r' L' hI hstep htail ihx =>
    intro f
    cases f with
    | zero => rfl
    | succ f =>
      rw [run, hstep]
      show r' :: run f q' = (r' :: L').take (f + 1)
      rw [List.take_succ_cons, ihx f]

/-! ### Counting: `asc 1 n` enumerates each partition of `n` exactly once -/

/-- The canonical bijection between members of `asc 1 n` and Mathlib's
`Nat.Partition n` (multisets of positive parts summing to `n`). -/
def partitionEquiv (n : Nat) : {l : List Nat // l ∈ asc 1 n} ≃ Nat.Partition n where
  toFun l :=
    { parts := (l.1 : Multiset Nat)
      parts_pos := fun {i} hi => by
        have hm := (asc_mem 1 n (le_refl 1) l.1 l.2).2.2 i (Multiset.mem_coe.mp hi)
        omega
      parts_sum := by
        rw [Multiset.sum_coe]
        exact (asc_mem 1 n (le_refl 1) l.1 l.2).1 }
  invFun pt :=
    ⟨pt.parts.sort (· ≤ ·), by
      refine asc_complete 1 n (le_refl 1) _ ?_ ?_ ?_
      · rw [← Multiset.sum_coe, Multiset.sort_eq]
        exact pt.parts_sum
      · exact Multiset.sort_sorted _ _
      · intro q hq
        exact pt.parts_pos ((Multiset.mem_sort _).mp hq)⟩
  left_inv l := by
    apply Subtype.ext
    show Multiset.sort (· ≤ ·) (l.1 : Multiset Nat) = l.1
    have hperm : List.Perm (Multiset.sort (· ≤ ·) (l.1 : Multiset Nat)) l.1 :=
      Multiset.coe_eq_coe.mp (Multiset.sort_eq _ _)
    exact List.eq_of_perm_of_sorted hperm (Multiset.sort_sorted _ _)
      (asc_mem 1 n (le_refl 1) l.1 l.2).2.1
  right_inv pt := Nat.Partition.ext (Multiset.sort_eq _ _)

theorem length_asc_card (n : Nat) :
    (asc 1 n).length = Fintype.card (Nat.Partition n) := by
  classical
  rw [← List.toFinset_card_of_nodup (asc_nodup 1 n (le_refl 1)),
    ← Fintype.card_coe]
  exact Fintype.card_congr
    ((Equiv.subtypeEquivRight (fun l => List.mem_toFinset)).trans
      (partitionEquiv n))

/-! ### Remaining helpers -/

theorem emitsP_emits {I : Partitions → Prop} {p : Partitions}
    {L : List (List Nat)} (h : EmitsP I p L) : Emits p L := by
  induction h with
  | nil _ hnone => exact EmitsP.nil trivial hnone
  | cons _ hstep _ ihx => exact EmitsP.cons trivial hstep ihx

theorem recycle_eq_new (n : Nat) (vec : List Nat) :
    Partitions.recycle n vec = Partitions.new n := by
  simp [Partitions.recycle, Partitions.new, pushZeros_eq]

theorem asc14 : asc 1 4 = [[1,1,1,1],[1,1,2],[1,3],[2,2],[4]] := by
  simp [asc]

theorem run_new4 :
    run 6 (Partitions.new 4) = [[1,1,1,1],[1,1,2],[1,3],[2,2],[4]] := by
  rw [emits_run (emitsP_new 4) 6, asc14]
  rfl

theorem stepIter_zero_tail :
    ∀ j, stepIter j (⟨[], 0, 0, State.A⟩ : Partitions) = ⟨[], 0, 0, State.A⟩ := by
  intro j
  induction j with
  | zero => rfl
  | succ j ihj =>
    show stepIter j (Partitions.step ⟨[], 0, 0, State.A⟩).2 = _
    exact ihj

/-! ### The claims -/

/-- Claim C1, counterexample: for `n = 4` the iterator does NOT emit the
partitions in the order `[1,1,1,1], [1,1,2], [2,2], [1,3], [4]` claimed by
the specification (the actual third emission is `[1,3]`, not `[2,2]`). -/
theorem c1_order_counterexample :
    ¬ Emits (Partitions.new 4) [[1,1,1,1],[1,1,2],[2,2],[1,3],[4]] := by
  intro h
  have h2 : Emits (Partitions.new 4) (asc 1 4) := emitsP_emits (emitsP_new 4)
  have h3 := emitsP_unique h h2
  rw [asc14] at h3
  exact absurd h3 (by decide)

/-- Claim C1, amended: for input `n = 4` the iterator emits exactly 5
partitions, in exactly the order
`[1,1,1,1], [1,1,2], [1,3], [2,2], [4]` (and then signals exhaustion). -/
theorem c1_order_amended :
    Emits (Partitions.new 4) [[1,1,1,1],[1,1,2],[1,3],[2,2],[4]] := by
  have h2 : Emits (Partitions.new 4) (asc 1 4) := emitsP_emits (emitsP_new 4)
  rwa [asc14] at h2

/-- Claim C2: for every `n`, the sequence of partitions produced from
`new n` is finite, and the number of `some` results returned before the
first `none` equals the number of integer partitions of `n`. -/
theorem c2_count (n : Nat) :
    ∃ L, Emits (Partitions.new n) L ∧
      L.length = Fintype.card (Nat.Partition n) ∧
      ∀ f, (run f (Partitions.new n)).length
        = min f (Fintype.card (Nat.Partition n)) := by
  refine ⟨asc 1 n, emitsP_emits (emitsP_new n), length_asc_card n, ?_⟩
  intro f
  rw [emits_run (emitsP_new n) f, List.length_take, length_asc_card n]

/-- Claim C3: every partition ever returned by the iterator built from
`new n` sums to `n`. -/
theorem c3_sum (n f : Nat) (r : List Nat)
    (h : r ∈ run f (Partitions.new n)) : r.sum = n := by
  rw [emits_run (emitsP_new n) f] at h
  exact (asc_mem 1 n (le_refl 1) r (List.take_subset _ _ h)).1

/-- Witness for C3 at `n = 4`: the emission `[1,1,2]` sums to `4`. -/
theorem c3_sum_witness :
    [1,1,2] ∈ run 6 (Partitions.new 4) ∧ ([1,1,2] : List Nat).sum = 4 := by
  have hmem : [1,1,2] ∈ run 6 (Partitions.new 4) := by
    rw [run_new4]
    decide
  exact ⟨hmem, c3_sum 4 6 [1,1,2] hmem⟩

/-- Claim C4: every partition ever returned by the iterator built from
`new n` is non-decreasing with strictly positive parts (vacuously so for
the empty partition emitted when `n = 0`). -/
theorem c4_sorted_pos (n f : Nat) (r : List Nat)
    (h : r ∈ run f (Partitions.new n)) :
    List.Sorted (· ≤ ·) r ∧ ∀ q ∈ r, 0 < q := by
  rw [emits_run (emitsP_new n) f] at h
  have hm := asc_mem 1 n (le_refl 1) r (List.take_subset _ _ h)
  exact ⟨hm.2.1, fun q hq => hm.2.2 q hq⟩

/-- Witness for C4 at `n = 4`: the emission `[1,3]` is sorted and positive. -/
theorem c4_sorted_pos_witness :
    [1,3] ∈ run 6 (Partitions.new 4) ∧
    (List.Sorted (· ≤ ·) [1,3] ∧ ∀ q ∈ ([1,3] : List Nat), 0 < q) := by
  have hmem : [1,3] ∈ run 6 (Partitions.new 4) := by
    rw [run_new4]
    decide
  exact ⟨hmem, c4_sorted_pos 4 6 [1,3] hmem⟩

/-- Claim C5: no two partitions produced by one iterator built from `new n`
are identical as sequences. -/
theorem c5_nodup (n f : Nat) : (run f (Partitions.new n)).Nodup := by
  rw [emits_run (emitsP_new n) f]
  exact List.Nodup.sublist (List.take_sublist _ _) (asc_nodup 1 n (le_refl 1))

/-- Claim C6: once `next()` has returned `None`, every subsequent call also
returns `None` and leaves the whole state unchanged. -/
theorem c6_exhaustion_idempotent (p : Partitions)
    (h : (Partitions.step p).1 = none) :
    ∀ j, Partitions.step (stepIter j p) = (none, p) := by
  have hfix := step_none_fix h
  have hiter : ∀ j, stepIter j p = p := by
    intro j
    induction j with
    | zero => rfl
    | succ j ihj =>
      show stepIter j (Partitions.step p).2 = p
      rw [hfix]
      exact ihj
  intro j
  rw [hiter j, hfix]

/-- Witness for C6 at the exhausted state of `n = 1`. -/
theorem c6_exhaustion_witness :
    (Partitions.step ⟨[0,0], 0, 0, State.A⟩).1 = none ∧
    Partitions.step (stepIter 3 ⟨[0,0], 0, 0, State.A⟩)
      = (none, ⟨[0,0], 0, 0, State.A⟩) :=
  ⟨rfl, c6_exhaustion_idempotent ⟨[0,0], 0, 0, State.A⟩ rfl 3⟩

/-- Claim C7: `recycle n vec` produces exactly the same sequence of results
as `new n`, for every vector `vec`. -/
theorem c7_recycle_faithful (n : Nat) (vec : List Nat) (f : Nat) :
    run f (Partitions.recycle n vec) = run f (Partitions.new n) := by
  rw [recycle_eq_new]

/-- Claim C8: for `n = 0` the first call emits the empty partition and every
subsequent call signals exhaustion. -/
theorem c8_zero_case :
    Emits (Partitions.new 0) [[]] ∧
    ∀ j, (Partitions.step (stepIter (j + 1) (Partitions.new 0))).1 = none := by
  constructor
  · have h := emitsP_emits (emitsP_new 0)
    rwa [asc_zero] at h
  · intro j
    have h1 : stepIter (j + 1) (Partitions.new 0) = ⟨[], 0, 0, State.A⟩ := by
      show stepIter j (Partitions.step (Partitions.new 0)).2 = _
      exact stepIter_zero_tail j
    rw [h1]
    rfl

/-- Claim C9, counterexample: right after construction with `n = 1` the
stored residual `y` (which is `0`) does not equal
`n - (sum of the buffer values at indices 0..k)` (which is `1`). -/
theorem c9_residual_counterexample :
    ¬ ((Partitions.new 1).y
        = 1 - ((Partitions.new 1).a.take (Partitions.new 1).k).sum) := by
  decide

/-- Claim C9, amended: after construction and after every call, the stored
residual satisfies `y = n - (sum of buffer[0..k] + offset)` where the
offset is `1` in the outer phase and the carried `x` in the inner phase
(truncated subtraction, which only matters for `n = 0`). -/
theorem c9_residual_amended (n j : Nat) :
    (stepIter j (Partitions.new n)).y
      = n - (((stepIter j (Partitions.new n)).a.take
            (stepIter j (Partitions.new n)).k).sum
          + phaseOffset (stepIter j (Partitions.new n)).next) := by
  exact (emitsP_stepIter (emitsP_new n) j).1

/-- Claim C10: for `n ≥ 1` the buffer handed back by `end` has length
`n + 1` no matter how many calls were made; for `n = 0` it has length 1
before the first call and length 0 afterwards (the emitting call pops). -/
theorem c10_buffer_length (n j : Nat) :
    (Partitions.getBuffer (stepIter j (Partitions.new n))).length
      = if n = 0 ∧ 1 ≤ j then 0 else n + 1 := by
  by_cases hn : n = 0
  · subst hn
    cases j with
    | zero =>
      rw [if_neg (by omega)]
      rfl
    | succ j =>
      have h1 : stepIter (j + 1) (Partitions.new 0) = ⟨[], 0, 0, State.A⟩ := by
        show stepIter j (Partitions.step (Partitions.new 0)).2 = _
        exact stepIter_zero_tail j
      rw [h1, if_pos (by omega)]
      rfl
  · rw [if_neg (by simp [hn])]
    exact (emitsP_stepIter (emitsP_new n) j).2 (by omega)

end IntegerPartitions
